import Mathlib

/-!
Shallow embedding of the corpus-management core of LibAFL
(`src/afl/src/corpus/mod.rs`): the `Testcase` data model, the `Corpus`
trait with its default methods, the `InMemoryCorpus`, `OnDiskCorpus` and
`QueueCorpus` implementations, and theorems about the claims of the
specification.

Machine integers (`usize`, `u64`) are modelled as `Nat`; all the quantities
involved (entry counts, cursor positions, cycle counters) stay far below
`2^64` in any execution reachable from the operations modelled here, and no
operation relies on wrap-around, so no explicit modular reduction is needed.
A Rust call that can panic (index out of bounds, integer underflow) is
modelled with an explicit `panic` outcome.
-/

set_option autoImplicit false

namespace Afl

variable {I : Type} {σ : Type} {R : Type}

/-- Modelled from the spec: `Testcase` lives in `src/afl/src/corpus/testcase.rs`,
which is not under `src/`. Per spec §3, a testcase is an optional materialized
input payload, an optional filename under which the input is persisted, and an
open-ended metadata mapping (modelled as an association list from metadata-kind
to metadata-value; its concrete value type is irrelevant to every claim). -/
structure Testcase (I : Type) where
  input : Option I
  filename : Option String
  metadata : List (String × String) := []
  deriving DecidableEq

/-- Modelled from the spec: the `AflError` enum lives in `src/afl/src/lib.rs`,
which is not under `src/`. The corpus code constructs `AflError::Empty`,
`AflError::KeyNotFound` and `AflError::IllegalState`, each carrying a message
string; spec §7 adds `PersistenceError` (disk read/deserialize failure in
`load_from_disk`), modelled here by the `File` constructor. -/
inductive AflError where
  | Empty (msg : String)
  | KeyNotFound (msg : String)
  | IllegalState (msg : String)
  | File (msg : String)
  deriving DecidableEq

/-- Outcome of a Rust call that either returns `Ok`, returns `Err`, or panics
(index out of bounds / integer underflow). -/
inductive PResult (ε α : Type) where
  | ok (a : α)
  | err (e : ε)
  | panic
  deriving DecidableEq

/-- Modelled from the spec: the `Rand` trait lives in `src/afl/src/utils.rs`,
which is not under `src/`. Per spec §6 it provides a bounded integer draw:
`below(n)` draws an integer in `[0, n)` for `n > 0`, mutating the generator
state; modelled as a state-passing function. That `below r n < n` for `n > 0`
is the collaborator's contract, taken as a hypothesis where a claim needs it. -/
class Rand (R : Type) where
  below : R → Nat → Nat × R

/-- HasTestcaseVec trait: raw access to the entries vector. `entries_mut`
returns a mutable reference to the underlying vector field itself, modelled as
a get/set pair with the get-set law. -/
class HasTestcaseVec (σ : Type) (I : outParam Type) where
  entries : σ → List (Testcase I)
  setEntries : σ → List (Testcase I) → σ
  entries_set : ∀ s l, entries (setEntries s l) = l

/-- Corpus::count (trait default): `self.entries().len()`. -/
def Corpus.count [HasTestcaseVec σ I] (s : σ) : Nat :=
  (HasTestcaseVec.entries s).length

/-- Corpus::add (trait default): `self.entries_mut().push(testcase)`. -/
def Corpus.add [HasTestcaseVec σ I] (s : σ) (testcase : Testcase I) : σ :=
  HasTestcaseVec.setEntries s (HasTestcaseVec.entries s ++ [testcase])

/-- Corpus::replace (trait default): returns `KeyNotFound` when
`self.entries_mut().len() < idx`; otherwise executes
`self.entries_mut()[idx] = testcase`, which panics when `idx` is not below the
length (that is, exactly when `idx` equals the length, since the guard already
excluded `length < idx`). -/
def Corpus.replace [HasTestcaseVec σ I] (s : σ) (idx : Nat) (testcase : Testcase I) :
    PResult AflError σ :=
  if (HasTestcaseVec.entries s).length < idx then
    .err (.KeyNotFound ("Index " ++ Nat.repr idx ++ " out of bounds"))
  else if idx < (HasTestcaseVec.entries s).length then
    .ok (HasTestcaseVec.setEntries s ((HasTestcaseVec.entries s).set idx testcase))
  else
    .panic

/-- Corpus::get (trait default): `&self.entries()[idx]`; the indexing panics
when `idx` is out of bounds, modelled by `none`. -/
def Corpus.get? [HasTestcaseVec σ I] (s : σ) (idx : Nat) : Option (Testcase I) :=
  (HasTestcaseVec.entries s)[idx]?

/-- Corpus::remove (trait default):
`self.entries().iter().position(|x| ptr::eq(x, entry))` followed by
`Vec::remove` at the found position. A `&Testcase` reference that points into
the entries vector is determined by the slot it points at, so `ptr::eq`
holds exactly at that slot's position; the reference argument is therefore
modelled as the position it points at (a value `≥ length` standing for a
reference that does not point into the vector, which matches no element). -/
def Corpus.removeRef [HasTestcaseVec σ I] (s : σ) (i : Nat) :
    Option (Testcase I) × σ :=
  match (HasTestcaseVec.entries s)[i]? with
  | some tc => (some tc, HasTestcaseVec.setEntries s ((HasTestcaseVec.entries s).eraseIdx i))
  | none => (none, s)

/-- Corpus::remove, with pointer identity made explicit: each stored entry
carries a stable identity key (its address; distinct live entries have
distinct addresses). The scan `position(|x| ptr::eq(x, entry))` matches the
first entry whose key equals the given reference's key, and `Vec::remove`
removes it. This is the identity-tracking reading the spec's design notes
(§9) prescribe for `remove`. -/
def removeById (l : List (Nat × Testcase I)) (a : Nat) :
    Option (Testcase I) × List (Nat × Testcase I) :=
  match l with
  | [] => (none, [])
  | x :: xs =>
    if x.1 = a then (some x.2, xs)
    else ((removeById xs a).1, x :: (removeById xs a).2)

/-- Corpus::random_entry (trait default): error on an empty corpus, else draw
`id = rand.below(len as u64) as usize` and return `(self.get(id), id)`; the
`get` panics if the randomness source violates its contract. The `u64` casts
are identities for any vector length. -/
def Corpus.random_entry [HasTestcaseVec σ I] [Rand R] (s : σ) (r : R) :
    PResult AflError (Testcase I × Nat) × R :=
  if Corpus.count s = 0 then
    (.err (.Empty "No entries in corpus"), r)
  else
    match (HasTestcaseVec.entries s)[(Rand.below r (HasTestcaseVec.entries s).length).1]? with
    | some tc =>
      (.ok (tc, (Rand.below r (HasTestcaseVec.entries s).length).1),
       (Rand.below r (HasTestcaseVec.entries s).length).2)
    | none => (.panic, (Rand.below r (HasTestcaseVec.entries s).length).2)

/-- Corpus::load_testcase (trait default). `disk` is `Testcase::load_from_disk`,
modelled from the spec (testcase.rs is not under `src/`): it reads and
deserializes an input from the given location and fails with a
`PersistenceError` (`AflError.File`) when the location is unreadable or
malformed; modelled as an ambient function from filenames that either yields
the loaded testcase or an error message. The state is returned alongside the
outcome; each early error return in the source leaves `self` as it was. -/
def Corpus.load_testcase [HasTestcaseVec σ I] (disk : String → Except String (Testcase I))
    (s : σ) (idx : Nat) : PResult AflError Unit × σ :=
  match (HasTestcaseVec.entries s)[idx]? with
  | none => (.panic, s)
  | some tc =>
    match tc.input with
    | some _ => (.ok (), s)
    | none =>
      match tc.filename with
      | none => (.err (.IllegalState "Neither input, nor filename specified for testcase"), s)
      | some f =>
        match disk f with
        | .error e => (.err (.File e), s)
        | .ok ntc =>
          match Corpus.replace s idx ntc with
          | .ok s2 => (.ok (), s2)
          | .err e => (.err e, s)
          | .panic => (.panic, s)

/-- InMemoryCorpus: entries vector plus the `pos` recorded by `next`. -/
structure InMemoryCorpus (I : Type) where
  entries : List (Testcase I)
  pos : Nat
  deriving DecidableEq

instance : HasTestcaseVec (InMemoryCorpus I) I where
  entries s := s.entries
  setEntries s l := { s with entries := l }
  entries_set _ _ := rfl

/-- InMemoryCorpus::new. -/
def InMemoryCorpus.new : InMemoryCorpus I :=
  { entries := [], pos := 0 }

/-- InMemoryCorpus::next: error on an empty corpus, else draw
`id = rand.below(len as u64) as usize`, record `self.pos = id` and return
`(self.get(id), id)`. -/
def InMemoryCorpus.next [Rand R] (s : InMemoryCorpus I) (r : R) :
    PResult AflError (Testcase I × Nat) × InMemoryCorpus I × R :=
  if Corpus.count s = 0 then
    (.err (.Empty "No entries in corpus"), s, r)
  else
    match s.entries[(Rand.below r s.entries.length).1]? with
    | some tc =>
      (.ok (tc, (Rand.below r s.entries.length).1),
       { s with pos := (Rand.below r s.entries.length).1 },
       (Rand.below r s.entries.length).2)
    | none =>
      (.panic, { s with pos := (Rand.below r s.entries.length).1 },
       (Rand.below r s.entries.length).2)

/-- InMemoryCorpus::current_testcase: `(self.get(self.pos), self.pos)`;
the `get` panics when `pos` is out of bounds. -/
def InMemoryCorpus.current_testcase (s : InMemoryCorpus I) :
    Option (Testcase I × Nat) :=
  (s.entries[s.pos]?).map (fun tc => (tc, s.pos))

/-- PathBuf::join for the one shape of path the corpus builds:
`dir_path.join(name)` renders as the directory, a separator, and the name
(`PathBuf` is modelled as its string rendering; `to_str` always succeeds on
the strings modelled here). -/
def pathJoin (d f : String) : String := d ++ "/" ++ f

/-- OnDiskCorpus: entries vector, root directory and the `pos` recorded by
`next`. -/
structure OnDiskCorpus (I : Type) where
  entries : List (Testcase I)
  dir_path : String
  pos : Nat
  deriving DecidableEq

instance : HasTestcaseVec (OnDiskCorpus I) I where
  entries s := s.entries
  setEntries s l := { s with entries := l }
  entries_set _ _ := rfl

/-- OnDiskCorpus::new. -/
def OnDiskCorpus.new (dir_path : String) : OnDiskCorpus I :=
  { entries := [], dir_path := dir_path, pos := 0 }

/-- OnDiskCorpus::add: when the entry has no filename, assign
`dir_path.join(format!("id_N", entries.len()))` — the directory joined with
`"id_"` followed by the decimal rendering of the current entry count — then
push; an entry that already has a filename is pushed unchanged. -/
def OnDiskCorpus.add (s : OnDiskCorpus I) (entry : Testcase I) : OnDiskCorpus I :=
  match entry.filename with
  | none =>
    { s with entries :=
        s.entries ++
          [{ entry with
              filename := some (pathJoin s.dir_path ("id_" ++ Nat.repr s.entries.length)) }] }
  | some _ => { s with entries := s.entries ++ [entry] }

/-- OnDiskCorpus::next: identical to InMemoryCorpus::next. -/
def OnDiskCorpus.next [Rand R] (s : OnDiskCorpus I) (r : R) :
    PResult AflError (Testcase I × Nat) × OnDiskCorpus I × R :=
  if Corpus.count s = 0 then
    (.err (.Empty "No entries in corpus"), s, r)
  else
    match s.entries[(Rand.below r s.entries.length).1]? with
    | some tc =>
      (.ok (tc, (Rand.below r s.entries.length).1),
       { s with pos := (Rand.below r s.entries.length).1 },
       (Rand.below r s.entries.length).2)
    | none =>
      (.panic, { s with pos := (Rand.below r s.entries.length).1 },
       (Rand.below r s.entries.length).2)

/-- OnDiskCorpus::current_testcase: `(self.get(self.pos), self.pos)`. -/
def OnDiskCorpus.current_testcase (s : OnDiskCorpus I) :
    Option (Testcase I × Nat) :=
  (s.entries[s.pos]?).map (fun tc => (tc, s.pos))

/-- QueueCorpus: a wrapped corpus, a 1-based cursor `pos` (0 meaning "not yet
started") and the `cycles` counter of completed full traversals. -/
structure QueueCorpus (σ : Type) where
  corpus : σ
  pos : Nat
  cycles : Nat
  deriving DecidableEq

instance [HasTestcaseVec σ I] : HasTestcaseVec (QueueCorpus σ) I where
  entries q := HasTestcaseVec.entries q.corpus
  setEntries q l := { q with corpus := HasTestcaseVec.setEntries q.corpus l }
  entries_set _ _ := by
    simp [HasTestcaseVec.entries_set]

/-- QueueCorpus::new: wraps a corpus with `pos = 0`, `cycles = 0`. -/
def QueueCorpus.new (corpus : σ) : QueueCorpus σ :=
  { corpus := corpus, pos := 0, cycles := 0 }

/-- QueueCorpus::next: `self.pos += 1` happens first; then an empty wrapped
corpus yields the `Empty` error (with the incremented `pos` kept); then if
`pos > count` the cursor wraps to `1` and `cycles` is incremented; finally the
entry at `pos - 1` is returned (in the wrap branch `pos - 1 = 0`, otherwise
`pos - 1` is the old `pos`). The rand argument is ignored by the source
(`_rand`). -/
def QueueCorpus.next [HasTestcaseVec σ I] [Rand R] (q : QueueCorpus σ) (r : R) :
    PResult AflError (Testcase I × Nat) × QueueCorpus σ × R :=
  if Corpus.count q.corpus = 0 then
    (.err (.Empty "Corpus"), { q with pos := q.pos + 1 }, r)
  else if q.pos + 1 > Corpus.count q.corpus then
    match (HasTestcaseVec.entries q.corpus)[0]? with
    | some tc => (.ok (tc, 0), { q with pos := 1, cycles := q.cycles + 1 }, r)
    | none => (.panic, { q with pos := 1, cycles := q.cycles + 1 }, r)
  else
    match (HasTestcaseVec.entries q.corpus)[q.pos]? with
    | some tc => (.ok (tc, q.pos), { q with pos := q.pos + 1 }, r)
    | none => (.panic, { q with pos := q.pos + 1 }, r)

/-- QueueCorpus::current_testcase: `(self.get(self.pos - 1), self.pos - 1)`.
When `pos = 0` the subtraction `self.pos - 1` underflows `usize` (a panic in a
debug build, a huge index that makes `get` panic in a release build), so the
call traps either way, modelled by `none`; when `pos ≥ 1`, the `get` panics
exactly when `pos - 1` is out of bounds. -/
def QueueCorpus.current_testcase [HasTestcaseVec σ I] (q : QueueCorpus σ) :
    Option (Testcase I × Nat) :=
  if q.pos = 0 then none
  else
    match (HasTestcaseVec.entries q.corpus)[q.pos - 1]? with
    | some tc => some (tc, q.pos - 1)
    | none => none

/-- Iterated `QueueCorpus::next`: state (queue and randomness source) after
`n` calls, the returned values being discarded. -/
def QueueCorpus.iterNext [HasTestcaseVec σ I] [Rand R] (q : QueueCorpus σ) (r : R) :
    Nat → QueueCorpus σ × R
  | 0 => (q, r)
  | n + 1 =>
    (QueueCorpus.next (QueueCorpus.iterNext q r n).1 (QueueCorpus.iterNext q r n).2).2

/-- Concrete randomness source for witnesses: `below` reduces a fixed seed
modulo the bound (satisfying the `Rand` contract) and leaves the state
unchanged. -/
structure ModRand where
  seed : Nat
  deriving DecidableEq

instance : Rand ModRand where
  below r n := (r.seed % n, r)

/-- Repeated `OnDiskCorpus::add`, first entry of the list first. -/
def OnDiskCorpus.addAll (s : OnDiskCorpus I) : List (Testcase I) → OnDiskCorpus I
  | [] => s
  | t :: ts => OnDiskCorpus.addAll (OnDiskCorpus.add s t) ts

/-- The entry as `OnDiskCorpus::add` stores it when the corpus directory is
`d` and the corpus holds `k` entries: a missing filename is filled with the
assigned name, an existing filename is kept. -/
def assignFilename (d : String) (k : Nat) (t : Testcase I) : Testcase I :=
  match t.filename with
  | none => { t with filename := some (pathJoin d ("id_" ++ Nat.repr k)) }
  | some _ => t

/-- Numeric value of a decimal digit character. -/
def charDigitVal (c : Char) : Nat := c.toNat - 48

/-- Numeric value of a decimal digit string, most significant digit first;
the left inverse of the decimal rendering used by the assigned filenames. -/
def decVal (l : List Char) : Nat :=
  l.foldl (fun a c => a * 10 + charDigitVal c) 0

/-- Sample testcase for concrete witnesses. -/
def sampleTc : Testcase Nat :=
  { input := some 7, filename := some "seed" }

/-- Second sample testcase for concrete witnesses. -/
def sampleTc2 : Testcase Nat :=
  { input := some 9, filename := none }

/-- Sample one-entry in-memory corpus for concrete witnesses. -/
def sampleMem1 : InMemoryCorpus Nat :=
  { entries := [sampleTc], pos := 0 }

/-- Concrete disk model for witnesses: every location is unreadable. -/
def sampleDisk : String → Except String (Testcase Nat) :=
  fun _ => .error "unreadable"

/-- Concrete on-disk trace, step 1: add an unnamed entry to a fresh corpus
over directory `d`; it is assigned `d/id_0`. -/
def c7sA : OnDiskCorpus Nat :=
  OnDiskCorpus.add (OnDiskCorpus.new "d") { input := some 1, filename := none }

/-- Concrete on-disk trace, step 2: add a second unnamed entry; it is
assigned `d/id_1`. -/
def c7sB : OnDiskCorpus Nat :=
  OnDiskCorpus.add c7sA { input := some 2, filename := none }

/-- Concrete on-disk trace, step 3: remove the first entry by identity
(the caller's reference points at slot 0). -/
def c7sC : OnDiskCorpus Nat :=
  (Corpus.removeRef c7sB 0).2

/-- Concrete on-disk trace, step 4: add a third unnamed entry; the corpus now
holds one entry, so the assigned name is `d/id_1` again. -/
def c7sD : OnDiskCorpus Nat :=
  OnDiskCorpus.add c7sC { input := some 3, filename := none }

/-! ## Claim C1: `QueueCorpus::next` on an empty wrapped corpus -/

/-- C1 counterexample: on the freshly constructed queue over an empty
in-memory corpus, `next` does return the `EmptyCorpus` error, but the claimed
"state unchanged" part fails: `pos` moves from 0 to 1, because the source
increments `pos` before the emptiness check. -/
theorem c1_empty_next_changes_pos :
    (QueueCorpus.next (QueueCorpus.new (InMemoryCorpus.new : InMemoryCorpus Nat))
        (ModRand.mk 0)).1 = .err (.Empty "Corpus") ∧
    ¬ ((QueueCorpus.next (QueueCorpus.new (InMemoryCorpus.new : InMemoryCorpus Nat))
          (ModRand.mk 0)).2.1.pos
        = (QueueCorpus.new (InMemoryCorpus.new : InMemoryCorpus Nat)).pos) := by
  decide

/-- C1 (amended): for every `QueueCorpus` whose wrapped corpus is empty,
`next` fails with the `EmptyCorpus` error, `cycles` and the wrapped corpus
keep their values, and `pos` is incremented by one (the increment happens
before the emptiness check); the randomness source is untouched. -/
theorem c1_amended_next_on_empty [HasTestcaseVec σ I] [Rand R]
    (q : QueueCorpus σ) (r : R) (h : Corpus.count q.corpus = 0) :
    QueueCorpus.next q r = (.err (.Empty "Corpus"), { q with pos := q.pos + 1 }, r) := by
  unfold QueueCorpus.next
  simp [h]

/-- C1 witness: `c1_amended_next_on_empty` applied to the empty in-memory
corpus under a fresh queue. -/
theorem c1_amended_next_on_empty_witness :
    Corpus.count (InMemoryCorpus.new : InMemoryCorpus Nat) = 0 ∧
    QueueCorpus.next (QueueCorpus.new (InMemoryCorpus.new : InMemoryCorpus Nat)) (ModRand.mk 3)
      = (.err (.Empty "Corpus"),
         { corpus := (InMemoryCorpus.new : InMemoryCorpus Nat), pos := 1, cycles := 0 },
         ModRand.mk 3) :=
  ⟨rfl, c1_amended_next_on_empty _ _ rfl⟩

/-! ## Claim C2: `Corpus::replace` bounds check -/

/-- C2: the guard `entries.len() < idx` misses `idx == count()`: on an empty
corpus, `replace(0, t)` slips past the guard and panics on the index
assignment instead of returning `KeyNotFound`, while `replace(1, t)` does
return `KeyNotFound`. The claim (and the spec) say every out-of-bounds index
fails with `KeyNotFound` and never panics; the code panics at `idx == count()`. -/
theorem c2_replace_at_count_panics :
    Corpus.replace (InMemoryCorpus.new : InMemoryCorpus Nat) 0
        { input := some 0, filename := none } = .panic ∧
    Corpus.replace (InMemoryCorpus.new : InMemoryCorpus Nat) 1
        { input := some 0, filename := none }
      = .err (.KeyNotFound "Index 1 out of bounds") := by
  decide

@[simp]
theorem entries_inMemory (m : InMemoryCorpus I) :
    HasTestcaseVec.entries m = m.entries := rfl

@[simp]
theorem entries_onDisk (s : OnDiskCorpus I) :
    HasTestcaseVec.entries s = s.entries := rfl

@[simp]
theorem entries_queue [HasTestcaseVec σ I] (q : QueueCorpus σ) :
    HasTestcaseVec.entries q = HasTestcaseVec.entries q.corpus := rfl

theorem count_eq_length [HasTestcaseVec σ I] (s : σ) :
    Corpus.count s = (HasTestcaseVec.entries s).length := rfl

/-! ## Claim C3: cycle counting of the queue scheduler -/
/-- While the cursor has not yet exhausted the wrapped corpus, each `next`
simply advances `pos` by one and never touches `cycles`, the wrapped corpus
or the randomness source: after `k ≤ count` calls from a fresh queue the
state is exactly `pos = k`, `cycles = 0`. -/
theorem iterNext_pos_of_le [HasTestcaseVec σ I] [Rand R] (c : σ) (r : R) (k : Nat)
    (h1 : 1 ≤ Corpus.count c) (hk : k ≤ Corpus.count c) :
    QueueCorpus.iterNext (QueueCorpus.new c) r k
      = ({ corpus := c, pos := k, cycles := 0 }, r) := by
  induction k with
  | zero => rfl
  | succ k ih =>
    have hk' : k ≤ Corpus.count c := Nat.le_of_succ_le hk
    simp only [QueueCorpus.iterNext]
    rw [ih hk']
    have hc : Corpus.count c = (HasTestcaseVec.entries c).length := rfl
    have h0 : ¬ (Corpus.count c = 0) := by omega
    have h2 : ¬ (k + 1 > Corpus.count c) := by omega
    have hlt : k < (HasTestcaseVec.entries c).length := by omega
    have htc : (HasTestcaseVec.entries c)[k]? = some ((HasTestcaseVec.entries c).get ⟨k, hlt⟩) :=
      List.getElem?_eq_getElem hlt
    simp [QueueCorpus.next, h0, h2, htc]

/-- C3: for a fresh queue over a wrapped corpus with `n ≥ 1` entries, after
`n` calls to `next` the state is `pos = n`, `cycles = 0`; the `(n+1)`-th call
wraps to `pos = 1` with `cycles = 1` and returns the entry at index 0. -/
theorem c3_queue_cycles [HasTestcaseVec σ I] [Rand R] (c : σ) (r : R) (n : Nat)
    (e0 : Testcase I) (hn : 1 ≤ n) (hL : Corpus.count c = n)
    (h0 : (HasTestcaseVec.entries c)[0]? = some e0) :
    ((QueueCorpus.iterNext (QueueCorpus.new c) r n).1.pos = n ∧
     (QueueCorpus.iterNext (QueueCorpus.new c) r n).1.cycles = 0) ∧
    ((QueueCorpus.iterNext (QueueCorpus.new c) r (n + 1)).1.pos = 1 ∧
     (QueueCorpus.iterNext (QueueCorpus.new c) r (n + 1)).1.cycles = 1) ∧
    (QueueCorpus.next (QueueCorpus.iterNext (QueueCorpus.new c) r n).1
        (QueueCorpus.iterNext (QueueCorpus.new c) r n).2).1 = .ok (e0, 0) := by
  subst hL
  have hstate := iterNext_pos_of_le c r (Corpus.count c) hn (le_refl _)
  have hne : ¬ (Corpus.count c = 0) := by omega
  have hwrap : Corpus.count c + 1 > Corpus.count c := by omega
  refine ⟨?_, ?_, ?_⟩
  · rw [hstate]
    exact ⟨rfl, rfl⟩
  · simp only [QueueCorpus.iterNext]
    rw [hstate]
    simp [QueueCorpus.next, hne, hwrap, h0]
  · rw [hstate]
    simp [QueueCorpus.next, hne, hwrap, h0]

/-- C3 witness: `c3_queue_cycles` applied to a one-entry corpus. -/
theorem c3_queue_cycles_witness :
    ((QueueCorpus.iterNext (QueueCorpus.new sampleMem1) (ModRand.mk 0) 1).1.pos = 1 ∧
     (QueueCorpus.iterNext (QueueCorpus.new sampleMem1) (ModRand.mk 0) 1).1.cycles = 0) ∧
    ((QueueCorpus.iterNext (QueueCorpus.new sampleMem1) (ModRand.mk 0) 2).1.pos = 1 ∧
     (QueueCorpus.iterNext (QueueCorpus.new sampleMem1) (ModRand.mk 0) 2).1.cycles = 1) ∧
    (QueueCorpus.next (QueueCorpus.iterNext (QueueCorpus.new sampleMem1) (ModRand.mk 0) 1).1
        (QueueCorpus.iterNext (QueueCorpus.new sampleMem1) (ModRand.mk 0) 1).2).1
      = .ok (sampleTc, 0) :=
  c3_queue_cycles sampleMem1 (ModRand.mk 0) 1 sampleTc (by decide) rfl rfl

/-! ## Claim C4: `random_entry` and the backends' `next` stay in bounds -/
/-- C4: with a randomness source honouring its contract (`below n < n` for
`n > 0`): on an empty corpus `random_entry` (and `InMemoryCorpus::next`, the
backends' default) fails with `EmptyCorpus`; on a non-empty corpus both
succeed, returning the index drawn by `below` — which is strictly below
`count()` — together with the entry stored at that index. -/
theorem c4_random_entry_in_bounds [HasTestcaseVec σ I] [Rand R]
    (s : σ) (m : InMemoryCorpus I) (r : R)
    (hb : ∀ n, 0 < n → (Rand.below r n).1 < n) :
    (Corpus.count s = 0 →
      (Corpus.random_entry s r).1 = .err (.Empty "No entries in corpus")) ∧
    (0 < Corpus.count s →
      (Rand.below r (HasTestcaseVec.entries s).length).1 < Corpus.count s) ∧
    (0 < Corpus.count s → ∀ tc : Testcase I,
      (HasTestcaseVec.entries s)[(Rand.below r (HasTestcaseVec.entries s).length).1]? = some tc →
      Corpus.random_entry s r
        = (.ok (tc, (Rand.below r (HasTestcaseVec.entries s).length).1),
           (Rand.below r (HasTestcaseVec.entries s).length).2)) ∧
    (Corpus.count m = 0 →
      (InMemoryCorpus.next m r).1 = .err (.Empty "No entries in corpus")) ∧
    (0 < Corpus.count m → ∀ tc : Testcase I,
      m.entries[(Rand.below r m.entries.length).1]? = some tc →
      (InMemoryCorpus.next m r).1 = .ok (tc, (Rand.below r m.entries.length).1) ∧
      (Rand.below r m.entries.length).1 < Corpus.count m) := by
  refine ⟨?_, ?_, ?_, ?_, ?_⟩
  · intro h
    simp [Corpus.random_entry, h]
  · intro h
    exact hb _ h
  · intro h tc htc
    have hne : ¬ (Corpus.count s = 0) := by omega
    simp [Corpus.random_entry, hne, htc]
  · intro h
    simp [InMemoryCorpus.next, h]
  · intro h tc htc
    have hne : ¬ (Corpus.count m = 0) := by omega
    exact ⟨by simp [InMemoryCorpus.next, hne, htc], hb _ h⟩

/-- C4 witness: `c4_random_entry_in_bounds` on a one-entry corpus with a
contract-honouring concrete randomness source. -/
theorem c4_random_entry_in_bounds_witness :
    Corpus.random_entry sampleMem1 (ModRand.mk 0)
      = (.ok (sampleTc, 0), ModRand.mk 0) :=
  (c4_random_entry_in_bounds sampleMem1 sampleMem1 (ModRand.mk 0)
      (fun _ hn => Nat.mod_lt _ hn)).2.2.1 (by decide) sampleTc rfl

/-! ## Claim C5: `load_testcase` -/

/-- C5: for an in-bounds `idx`, `load_testcase` fails with `IllegalState`
exactly when the entry at `idx` has neither a materialized input nor a
filename; on any failure the entry at `idx` is unmodified; and when the entry
already has a materialized input the call succeeds leaving the whole state
unchanged. -/
theorem c5_load_testcase [HasTestcaseVec σ I] (disk : String → Except String (Testcase I))
    (s : σ) (idx : Nat) (tc : Testcase I)
    (h : (HasTestcaseVec.entries s)[idx]? = some tc) :
    ((∃ m, (Corpus.load_testcase disk s idx).1 = .err (.IllegalState m)) ↔
      (tc.input = none ∧ tc.filename = none)) ∧
    (∀ e, (Corpus.load_testcase disk s idx).1 = .err e →
      (HasTestcaseVec.entries (Corpus.load_testcase disk s idx).2)[idx]? = some tc) ∧
    (∀ v, tc.input = some v → Corpus.load_testcase disk s idx = (.ok (), s)) := by
  have hlt : idx < (HasTestcaseVec.entries s).length := by
    by_contra hcon
    rw [List.getElem?_eq_none (Nat.le_of_not_lt hcon)] at h
    exact Option.noConfusion h
  have hrep : ∀ ntc : Testcase I, Corpus.replace s idx ntc
      = .ok (HasTestcaseVec.setEntries s ((HasTestcaseVec.entries s).set idx ntc)) := by
    intro ntc
    have h1 : ¬ ((HasTestcaseVec.entries s).length < idx) := by omega
    simp [Corpus.replace, h1, hlt]
  rcases hin : tc.input with _ | v
  · rcases hfn : tc.filename with _ | f
    · refine ⟨?_, ?_, ?_⟩ <;> simp [Corpus.load_testcase, h, hin, hfn]
    · rcases hdisk : disk f with e | ntc
      · refine ⟨?_, ?_, ?_⟩ <;> simp [Corpus.load_testcase, h, hin, hfn, hdisk]
      · refine ⟨?_, ?_, ?_⟩ <;> simp [Corpus.load_testcase, h, hin, hfn, hdisk, hrep]
  · refine ⟨?_, ?_, ?_⟩ <;> simp [Corpus.load_testcase, h, hin]

/-- C5 witness: on an entry that already has a materialized input,
`load_testcase` succeeds and leaves the corpus unchanged. -/
theorem c5_load_testcase_witness :
    Corpus.load_testcase sampleDisk sampleMem1 0 = (.ok (), sampleMem1) :=
  (c5_load_testcase sampleDisk sampleMem1 0 sampleTc rfl).2.2 7 rfl

/-! ## Claim C8: `replace` then `get` -/

/-- C8: for `idx < count()`, `replace(idx, t)` succeeds, after it `get(idx)`
returns exactly `t`, and every entry at an index other than `idx` is
unchanged. -/
theorem c8_replace_then_get [HasTestcaseVec σ I] (s : σ) (idx : Nat) (tc : Testcase I)
    (h : idx < Corpus.count s) :
    Corpus.replace s idx tc
      = .ok (HasTestcaseVec.setEntries s ((HasTestcaseVec.entries s).set idx tc)) ∧
    Corpus.get? (HasTestcaseVec.setEntries s ((HasTestcaseVec.entries s).set idx tc)) idx
      = some tc ∧
    (∀ j, j ≠ idx →
      Corpus.get? (HasTestcaseVec.setEntries s ((HasTestcaseVec.entries s).set idx tc)) j
        = Corpus.get? s j) := by
  have hlt : idx < (HasTestcaseVec.entries s).length := h
  have h1 : ¬ ((HasTestcaseVec.entries s).length < idx) := by omega
  refine ⟨?_, ?_, ?_⟩
  · simp [Corpus.replace, h1, hlt]
  · simp [Corpus.get?, HasTestcaseVec.entries_set, hlt]
  · intro j hj
    simp [Corpus.get?, HasTestcaseVec.entries_set,
      List.getElem?_set_ne (Ne.symm hj)]

/-- C8 witness: `c8_replace_then_get` on a one-entry corpus. -/
theorem c8_replace_then_get_witness :
    Corpus.replace sampleMem1 0 sampleTc2
      = .ok { entries := [sampleTc2], pos := 0 } ∧
    Corpus.get? ({ entries := [sampleTc2], pos := 0 } : InMemoryCorpus Nat) 0
      = some sampleTc2 :=
  ⟨(c8_replace_then_get sampleMem1 0 sampleTc2 (by decide)).1,
   (c8_replace_then_get sampleMem1 0 sampleTc2 (by decide)).2.1⟩

/-! ## Claim C9: identity-based removal, no double removal -/

/-- Removal by an identity key that no stored entry carries finds nothing and
leaves the collection unchanged. -/
theorem removeById_of_not_mem (l : List (Nat × Testcase I)) (a : Nat)
    (h : a ∉ l.map Prod.fst) : removeById l a = (none, l) := by
  induction l with
  | nil => rfl
  | cons x xs ih =>
    rw [List.map_cons, List.mem_cons, not_or] at h
    have hx : ¬ (x.1 = a) := fun hh => h.1 hh.symm
    simp [removeById, hx, ih h.2]

/-- C9: with pairwise-distinct identity keys (distinct live entries have
distinct addresses), removing an entry that is present returns exactly that
entry and shrinks the collection by one, and a second removal with the same
identity finds nothing and changes nothing. -/
theorem c9_remove_identity (l : List (Nat × Testcase I)) (a : Nat) (tc : Testcase I)
    (hnd : (l.map Prod.fst).Nodup) (hmem : (a, tc) ∈ l) :
    (removeById l a).1 = some tc ∧
    (removeById l a).2.length + 1 = l.length ∧
    removeById (removeById l a).2 a = (none, (removeById l a).2) := by
  induction l with
  | nil => cases hmem
  | cons x xs ih =>
    rw [List.map_cons, List.nodup_cons] at hnd
    by_cases hx : x.1 = a
    · rcases List.mem_cons.mp hmem with h1 | h2
      · rw [← h1]
        refine ⟨by simp [removeById], by simp [removeById], ?_⟩
        have hnotin : a ∉ xs.map Prod.fst := by
          rw [← h1] at hnd
          exact hnd.1
        simp [removeById, removeById_of_not_mem xs a hnotin]
      · exfalso
        have : a ∈ xs.map Prod.fst := List.mem_map.mpr ⟨(a, tc), h2, rfl⟩
        rw [hx] at hnd
        exact hnd.1 this
    · have hmem' : (a, tc) ∈ xs := by
        rcases List.mem_cons.mp hmem with h1 | h2
        · exact absurd (congrArg Prod.fst h1.symm) hx
        · exact h2
      obtain ⟨ih1, ih2, ih3⟩ := ih hnd.2 hmem'
      refine ⟨by simp [removeById, hx, ih1], ?_, ?_⟩
      · simp only [removeById, if_neg hx, List.length_cons]
        omega
      · simp [removeById, hx, ih3]

/-- C9 witness: `c9_remove_identity` on a two-entry collection with distinct
identity keys. -/
theorem c9_remove_identity_witness :
    (removeById [(10, sampleTc), (11, sampleTc2)] 10).1 = some sampleTc ∧
    (removeById [(10, sampleTc), (11, sampleTc2)] 10).2.length + 1 = 2 ∧
    removeById (removeById [(10, sampleTc), (11, sampleTc2)] 10).2 10
      = (none, (removeById [(10, sampleTc), (11, sampleTc2)] 10).2) :=
  c9_remove_identity [(10, sampleTc), (11, sampleTc2)] 10 sampleTc
    (by decide) (by decide)

/-! ## Claim C6: `current_testcase` after `next` -/

/-- C6: whenever `next` succeeds, `current_testcase` on the resulting state
does not trap and returns exactly the entry and index the `next` returned
(the entry at `pos - 1`); before any `next` (`pos = 0`) the `pos - 1`
underflow makes `current_testcase` trap, modelled by `none`. -/
theorem c6_current_testcase [HasTestcaseVec σ I] [Rand R] :
    (∀ (q : QueueCorpus σ) (r : R) (tc : Testcase I) (idx : Nat),
        (QueueCorpus.next q r).1 = .ok (tc, idx) →
        QueueCorpus.current_testcase (QueueCorpus.next q r).2.1 = some (tc, idx)) ∧
    (∀ q : QueueCorpus σ, q.pos = 0 →
        QueueCorpus.current_testcase (I := I) q = none) := by
  constructor
  · intro q r tc idx h
    by_cases h0 : Corpus.count q.corpus = 0
    · simp [QueueCorpus.next, h0] at h
    · by_cases h1 : q.pos + 1 > Corpus.count q.corpus
      · cases hm : (HasTestcaseVec.entries q.corpus)[0]? with
        | none => simp [QueueCorpus.next, h0, h1, hm] at h
        | some tc0 =>
          simp [QueueCorpus.next, h0, h1, hm] at h
          obtain ⟨htc, hidx⟩ := h
          subst htc
          subst hidx
          simp [QueueCorpus.next, h0, h1, hm, QueueCorpus.current_testcase]
      · cases hm : (HasTestcaseVec.entries q.corpus)[q.pos]? with
        | none => simp [QueueCorpus.next, h0, h1, hm] at h
        | some tc0 =>
          simp [QueueCorpus.next, h0, h1, hm] at h
          obtain ⟨htc, hidx⟩ := h
          subst htc
          subst hidx
          simp [QueueCorpus.next, h0, h1, hm, QueueCorpus.current_testcase]
  · intro q h
    simp [QueueCorpus.current_testcase, h]

/-- C6 witness: after one successful `next` on a one-entry corpus,
`current_testcase` returns that entry at index 0. -/
theorem c6_current_testcase_witness :
    QueueCorpus.current_testcase
        (QueueCorpus.next (QueueCorpus.new sampleMem1) (ModRand.mk 0)).2.1
      = some (sampleTc, 0) :=
  c6_current_testcase.1 (QueueCorpus.new sampleMem1) (ModRand.mk 0) sampleTc 0 (by decide)

/-! ## Claim C7: filename assignment of `OnDiskCorpus::add`

The assigned name embeds the current entry count, rendered in decimal by
`format!`/`Nat.repr`. The first lemmas establish that the decimal rendering
is injective, by exhibiting its left inverse `decVal`. -/

theorem toDigitsCore_shift (fuel : Nat) : ∀ (n : Nat) (ds : List Char),
    Nat.toDigitsCore 10 fuel n ds = Nat.toDigitsCore 10 fuel n [] ++ ds := by
  induction fuel with
  | zero => intro n ds; rfl
  | succ fuel ih =>
    intro n ds
    simp only [Nat.toDigitsCore]
    by_cases h : n / 10 = 0
    · simp [h]
    · rw [if_neg h, if_neg h, ih (n / 10) (Nat.digitChar (n % 10) :: ds),
        ih (n / 10) [Nat.digitChar (n % 10)], List.append_assoc]
      rfl

theorem charDigitVal_digitChar (d : Nat) (h : d < 10) :
    charDigitVal (Nat.digitChar d) = d := by
  interval_cases d <;> decide

theorem decVal_append_singleton (l : List Char) (c : Char) :
    decVal (l ++ [c]) = decVal l * 10 + charDigitVal c := by
  simp [decVal, List.foldl_append]

theorem decVal_toDigitsCore (fuel : Nat) : ∀ n : Nat, n < 10 ^ fuel →
    decVal (Nat.toDigitsCore 10 fuel n []) = n := by
  induction fuel with
  | zero =>
    intro n hn
    have hn0 : n = 0 := by simpa using hn
    subst hn0
    rfl
  | succ fuel ih =>
    intro n hn
    simp only [Nat.toDigitsCore]
    by_cases h : n / 10 = 0
    · rw [if_pos h]
      have hlt : n < 10 := by omega
      have hmod : n % 10 = n := Nat.mod_eq_of_lt hlt
      have hch : charDigitVal (Nat.digitChar n) = n := charDigitVal_digitChar n hlt
      simp [decVal, hmod, hch]
    · rw [if_neg h, toDigitsCore_shift, decVal_append_singleton]
      have hdiv : n / 10 < 10 ^ fuel := by
        rw [Nat.div_lt_iff_lt_mul (by norm_num)]
        calc n < 10 ^ (fuel + 1) := hn
        _ = 10 ^ fuel * 10 := by rw [pow_succ]
      rw [ih (n / 10) hdiv, charDigitVal_digitChar (n % 10) (Nat.mod_lt _ (by norm_num))]
      have := Nat.div_add_mod n 10
      omega

theorem decVal_toDigits (n : Nat) : decVal (Nat.toDigits 10 n) = n := by
  apply decVal_toDigitsCore
  have h1 : n < 10 ^ n := Nat.lt_pow_self (by norm_num) n
  have h2 : (10 : Nat) ^ n ≤ 10 ^ (n + 1) := Nat.pow_le_pow_right (by norm_num) (Nat.le_succ n)
  omega

/-- The decimal rendering used in assigned filenames is injective. -/
theorem repr_injective (i j : Nat) (h : Nat.repr i = Nat.repr j) : i = j := by
  have h3 : Nat.toDigits 10 i = Nat.toDigits 10 j := congrArg String.data h
  have h4 := congrArg decVal h3
  rwa [decVal_toDigits, decVal_toDigits] at h4

/-- Two assigned names under the same directory with distinct indices
differ. -/
theorem assignedName_inj (d : String) (i j : Nat)
    (h : pathJoin d ("id_" ++ Nat.repr i) = pathJoin d ("id_" ++ Nat.repr j)) : i = j := by
  have hd := congrArg String.data h
  simp only [pathJoin, String.data_append] at hd
  have h1 := List.append_cancel_left hd
  have h2 := List.append_cancel_left h1
  exact repr_injective i j (congrArg List.asString h2)

theorem add_entries (s : OnDiskCorpus I) (t : Testcase I) :
    (OnDiskCorpus.add s t).entries
      = s.entries ++ [assignFilename s.dir_path s.entries.length t] := by
  rcases h : t.filename with _ | f <;> simp [OnDiskCorpus.add, assignFilename, h]

theorem add_dir (s : OnDiskCorpus I) (t : Testcase I) :
    (OnDiskCorpus.add s t).dir_path = s.dir_path := by
  rcases h : t.filename with _ | f <;> simp [OnDiskCorpus.add, h]

/-- Entries already present are untouched by later adds. -/
theorem addAll_prefix (ts : List (Testcase I)) : ∀ (s : OnDiskCorpus I) (i : Nat),
    i < s.entries.length →
    (OnDiskCorpus.addAll s ts).entries[i]? = s.entries[i]? := by
  induction ts with
  | nil => intro s i _; rfl
  | cons t ts ih =>
    intro s i h
    show (OnDiskCorpus.addAll (OnDiskCorpus.add s t) ts).entries[i]? = _
    rw [ih (OnDiskCorpus.add s t) i (by rw [add_entries]; simp; omega),
      add_entries, List.getElem?_append_left h]

theorem addAll_dir (ts : List (Testcase I)) : ∀ s : OnDiskCorpus I,
    (OnDiskCorpus.addAll s ts).dir_path = s.dir_path := by
  induction ts with
  | nil => intro s; rfl
  | cons t ts ih =>
    intro s
    show (OnDiskCorpus.addAll (OnDiskCorpus.add s t) ts).dir_path = _
    rw [ih (OnDiskCorpus.add s t), add_dir]

/-- The entry a sequence of adds stores at offset `k` past the existing
entries is the `k`-th added testcase, with its filename filled in against
the entry count at the time of its add. -/
theorem addAll_getElem (ts : List (Testcase I)) : ∀ (s : OnDiskCorpus I) (k : Nat),
    (OnDiskCorpus.addAll s ts).entries[s.entries.length + k]?
      = (ts[k]?).map (assignFilename s.dir_path (s.entries.length + k)) := by
  induction ts with
  | nil =>
    intro s k
    show s.entries[s.entries.length + k]? = (([] : List (Testcase I))[k]?).map _
    simp [List.getElem?_eq_none (Nat.le_add_right _ _)]
  | cons t ts ih =>
    intro s k
    show (OnDiskCorpus.addAll (OnDiskCorpus.add s t) ts).entries[s.entries.length + k]? = _
    have hlen : (OnDiskCorpus.add s t).entries.length = s.entries.length + 1 := by
      rw [add_entries]; simp
    cases k with
    | zero =>
      rw [Nat.add_zero, addAll_prefix ts (OnDiskCorpus.add s t) s.entries.length (by omega),
        add_entries, List.getElem?_concat_length]
      simp
    | succ k =>
      have harith : s.entries.length + (k + 1) = (OnDiskCorpus.add s t).entries.length + k := by
        omega
      rw [harith, ih (OnDiskCorpus.add s t) k, add_dir, hlen]
      have harith2 : s.entries.length + 1 + k = s.entries.length + (k + 1) := by omega
      rw [harith2]
      simp

/-- C7 counterexample: over directory `d`, add two unnamed entries (assigned
`d/id_0` and `d/id_1`), remove the first by identity, then add a third
unnamed entry. The corpus now holds one entry, so the new entry is assigned
`d/id_1` — the same name previously assigned to the second entry, which is
still present at index 0: the assigned name does not differ from every
previously assigned name. -/
theorem c7_counterexample_name_reused :
    (c7sD.entries[1]?).map Testcase.filename = some (some "d/id_1") ∧
    (c7sD.entries[0]?).map Testcase.filename = some (some "d/id_1") := by
  decide

/-- C7 (amended): `add` of a testcase without a filename appends it with the
assigned name `dir_path/id_k` where `k` is the entry count before the add (so
the first entry added to a fresh corpus gets `id_0`); a testcase that already
has a filename is appended unchanged; and in an add-only history (no
removals) every entry gets the name indexed by its position, so any two
distinct entries that were assigned names have distinct names. After a
removal the entry count can repeat, and an assigned name can collide with a
previously assigned one. -/
theorem c7_amended_filename_assignment :
    (∀ (s : OnDiskCorpus I) (t : Testcase I), t.filename = none →
      (OnDiskCorpus.add s t).entries
        = s.entries ++ [{ t with filename := some (pathJoin s.dir_path ("id_" ++ Nat.repr s.entries.length)) }]) ∧
    (∀ (s : OnDiskCorpus I) (t : Testcase I) (f : String), t.filename = some f →
      (OnDiskCorpus.add s t).entries = s.entries ++ [t]) ∧
    (∀ (d : String) (ts : List (Testcase I)) (k : Nat) (t : Testcase I),
      (∀ u ∈ ts, u.filename = none) → ts[k]? = some t →
      (OnDiskCorpus.addAll (OnDiskCorpus.new d) ts).entries[k]?
        = some { t with filename := some (pathJoin d ("id_" ++ Nat.repr k)) }) ∧
    (∀ (d : String) (ts : List (Testcase I)) (i j : Nat) (ti tj : Testcase I),
      (∀ u ∈ ts, u.filename = none) → i ≠ j →
      (OnDiskCorpus.addAll (OnDiskCorpus.new d) ts).entries[i]? = some ti →
      (OnDiskCorpus.addAll (OnDiskCorpus.new d) ts).entries[j]? = some tj →
      ti.filename ≠ tj.filename) := by
  have hfromEmpty : ∀ (d : String) (ts : List (Testcase I)) (k : Nat),
      (OnDiskCorpus.addAll (OnDiskCorpus.new d) ts).entries[k]?
        = (ts[k]?).map (assignFilename d k) := by
    intro d ts k
    have h0 := addAll_getElem ts (OnDiskCorpus.new d) k
    simpa [OnDiskCorpus.new] using h0
  refine ⟨?_, ?_, ?_, ?_⟩
  · intro s t h
    simp [OnDiskCorpus.add, h]
  · intro s t f h
    simp [OnDiskCorpus.add, h]
  · intro d ts k t hall hk
    rw [hfromEmpty d ts k, hk]
    have ht := hall t (List.getElem?_mem hk)
    simp [assignFilename, ht]
  · intro d ts i j ti tj hall hij hi hj
    rw [hfromEmpty d ts i] at hi
    rw [hfromEmpty d ts j] at hj
    obtain ⟨t1, ht1, hti⟩ := Option.map_eq_some'.mp hi
    obtain ⟨t2, ht2, htj⟩ := Option.map_eq_some'.mp hj
    have hf1 : ti.filename = some (pathJoin d ("id_" ++ Nat.repr i)) := by
      rw [← hti]
      simp [assignFilename, hall t1 (List.getElem?_mem ht1)]
    have hf2 : tj.filename = some (pathJoin d ("id_" ++ Nat.repr j)) := by
      rw [← htj]
      simp [assignFilename, hall t2 (List.getElem?_mem ht2)]
    rw [hf1, hf2]
    intro hcon
    exact hij (assignedName_inj d i j (Option.some.inj hcon))

/-- C7 witness: a single unnamed add to a fresh corpus over `d` yields the
assigned name `d/id_0`. -/
theorem c7_amended_filename_assignment_witness :
    (OnDiskCorpus.addAll (OnDiskCorpus.new "d") [sampleTc2]).entries[0]?
      = some { sampleTc2 with filename := some "d/id_0" } :=
  c7_amended_filename_assignment.2.2.1 "d" [sampleTc2] 0 sampleTc2 (by decide) rfl

/-! ## Claim C10: `QueueCorpus::next` is independent of the randomness source -/

/-- C10: `QueueCorpus::next` ignores its randomness argument: from any queue
state, two calls with any two randomness sources (even of different types)
return the same outcome and produce the same successor queue state, and the
randomness source is returned unconsumed. -/
theorem c10_queue_next_ignores_rand {P : Type} [HasTestcaseVec σ I] [Rand R] [Rand P]
    (q : QueueCorpus σ) (r : R) (p : P) :
    (QueueCorpus.next q r).1 = (QueueCorpus.next q p).1 ∧
    (QueueCorpus.next q r).2.1 = (QueueCorpus.next q p).2.1 ∧
    (QueueCorpus.next q r).2.2 = r := by
  by_cases h0 : Corpus.count q.corpus = 0
  · simp [QueueCorpus.next, h0]
  · by_cases h1 : q.pos + 1 > Corpus.count q.corpus
    · cases hm : (HasTestcaseVec.entries q.corpus)[0]? <;>
        simp [QueueCorpus.next, h0, h1, hm]
    · cases hm : (HasTestcaseVec.entries q.corpus)[q.pos]? <;>
        simp [QueueCorpus.next, h0, h1, hm]

/-- C10 witness: `c10_queue_next_ignores_rand` applied at a concrete queue
and two different concrete randomness sources. -/
theorem c10_queue_next_ignores_rand_witness :
    (QueueCorpus.next (QueueCorpus.new (InMemoryCorpus.new : InMemoryCorpus Nat))
        (ModRand.mk 5)).2.2 = ModRand.mk 5 :=
  (c10_queue_next_ignores_rand (QueueCorpus.new (InMemoryCorpus.new : InMemoryCorpus Nat))
    (ModRand.mk 5) (ModRand.mk 7)).2.2

end Afl
